import Mathlib

/-!
# Verification of the Debian control-file / copyright-file parsing core

A shallow embedding of the parsing core of `debian-control-file-rs`
(`src/control_file.rs`, `src/copyright_file/mod.rs`,
`src/copyright_file/fields.rs`).  The Rust code is written with the `nom`
parser-combinator library in *complete* mode, where every parser is a pure
function from an input slice to either a failure or a pair of
(remaining input, produced value).  We embed inputs as `List Char` and
parsers as `Input → Option (Input × α)`, translating each `nom` combinator
used by the source and then composing them exactly as the source does.
-/

set_option maxRecDepth 40000

namespace DebianControl

/-- Parser input: the borrowed input slice, embedded as a list of characters. -/
abbrev Input := List Char

/-- A nom-style complete parser: `none` is a recoverable parse failure
(`Err::Error`), `some (rest, v)` is a match returning the unconsumed rest of
the input and the produced value. -/
abbrev NomP (α : Type) : Type := Input → Option (Input × α)

/-! ## nom combinator primitives (complete versions)

Each definition mirrors the semantics of the identically-named combinator in
`nom` (the versions from `nom::bytes::complete`, `nom::character::complete`,
`nom::combinator`, `nom::multi`, `nom::sequence`, `nom::branch`). -/

/-- `nom::bytes::complete::tag`: match an exact string prefix. -/
def tag (t : List Char) : NomP (List Char) := fun i =>
  if t.isPrefixOf i then some (i.drop t.length, t) else none

/-- `nom::character::complete::char`: match one exact character. -/
def charP (c : Char) : NomP Char := fun i =>
  match i with
  | [] => none
  | c' :: rest => if c' = c then some (rest, c) else none

/-- `nom::bytes::complete::take_while`: longest (possibly empty) prefix of
characters satisfying the predicate. -/
def take_while (p : Char → Bool) : NomP (List Char) := fun i =>
  some (i.dropWhile p, i.takeWhile p)

/-- `nom::bytes::complete::take_while1`: like `take_while` but fails on an
empty match. -/
def take_while1 (p : Char → Bool) : NomP (List Char) := fun i =>
  if (i.takeWhile p).isEmpty then none else some (i.dropWhile p, i.takeWhile p)

/-- `nom::bytes::complete::take_while_m_n`: longest prefix of satisfying
characters, capped at `n`; fails if fewer than `m` characters match. -/
def take_while_m_n (m n : Nat) (p : Char → Bool) : NomP (List Char) := fun i =>
  if ((i.takeWhile p).take n).length < m then none
  else some (i.drop ((i.takeWhile p).take n).length, (i.takeWhile p).take n)

/-- `nom::combinator::eof`: succeeds (with an empty slice) exactly at end of
input. -/
def eof : NomP (List Char) := fun i =>
  if i.isEmpty then some (i, []) else none

/-- `nom::character::complete::line_ending`: `"\n"` or `"\r\n"`. -/
def line_ending : NomP (List Char) := fun i =>
  match i with
  | [] => none
  | c :: rest =>
    if c = '\n' then some (rest, ['\n'])
    else if c = '\r' then
      match rest with
      | '\n' :: rest2 => some (rest2, ['\r', '\n'])
      | _ => none
    else none

/-- The character class scanned by `not_line_ending` and
`my_non_line_ending`: anything but `'\n'` and `'\r'`. -/
def isNotEol (c : Char) : Bool := c != '\n' && c != '\r'

/-- Helper for `not_line_ending`: in complete mode, nom rejects a `'\r'` that
is not immediately followed by `'\n'`. -/
def crOk : List Char → Bool
  | [] => true
  | c :: rest =>
    if c = '\r' then
      match rest with
      | '\n' :: _ => true
      | _ => false
    else true

/-- `nom::character::complete::not_line_ending`: the characters before the
next line ending; errors if it runs into a bare carriage return. -/
def not_line_ending : NomP (List Char) := fun i =>
  if crOk (i.dropWhile isNotEol) then some (i.dropWhile isNotEol, i.takeWhile isNotEol)
  else none

/-- nom's space classification for `space0`/`space1`: blank = space or tab. -/
def isSpaceTab (c : Char) : Bool := c == ' ' || c == '\t'

/-- `nom::character::complete::space0`. -/
def space0 : NomP (List Char) := take_while isSpaceTab

/-- `nom::character::complete::space1`. -/
def space1 : NomP (List Char) := take_while1 isSpaceTab

/-- `nom::character::complete::alphanumeric1` (nom's `AsChar::is_alphanum`
is ASCII-alphanumeric). -/
def alphanumeric1 : NomP (List Char) := take_while1 fun c => c.isAlphanum

/-- `nom::combinator::map`. -/
def map {α β : Type} (p : NomP α) (f : α → β) : NomP β := fun i =>
  match p i with
  | some (r, v) => some (r, f v)
  | none => none

/-- `nom::combinator::value`. -/
def value {α β : Type} (v : β) (p : NomP α) : NomP β := map p fun _ => v

/-- `nom::combinator::opt`: never fails; wraps a failure as `none` value
without consuming. -/
def opt {α : Type} (p : NomP α) : NomP (Option α) := fun i =>
  match p i with
  | some (r, v) => some (r, some v)
  | none => some (i, none)

/-- `nom::sequence::pair`. -/
def pair {α β : Type} (p : NomP α) (q : NomP β) : NomP (α × β) := fun i =>
  match p i with
  | none => none
  | some (r, a) =>
    match q r with
    | none => none
    | some (r2, b) => some (r2, (a, b))

/-- `nom::sequence::preceded`. -/
def preceded {α β : Type} (p : NomP α) (q : NomP β) : NomP β := map (pair p q) Prod.snd

/-- `nom::sequence::terminated`. -/
def terminated {α β : Type} (p : NomP α) (q : NomP β) : NomP α := map (pair p q) Prod.fst

/-- `nom::sequence::separated_pair`. -/
def separated_pair {α β γ : Type} (p : NomP α) (s : NomP β) (q : NomP γ) : NomP (α × γ) :=
  map (pair p (pair s q)) fun x => (x.1, x.2.2)

/-- `nom::sequence::delimited`. -/
def delimited {α β γ : Type} (p : NomP α) (q : NomP β) (r : NomP γ) : NomP β :=
  map (pair p (pair q r)) fun x => x.2.1

/-- `nom::branch::alt` for two alternatives (the source's `alt((a, b))`). -/
def alt2 {α : Type} (p q : NomP α) : NomP α := fun i =>
  match p i with
  | some r => some r
  | none => q i

/-- `nom::combinator::recognize`: the consumed slice of the inner parser. -/
def recognize {α : Type} (p : NomP α) : NomP (List Char) := fun i =>
  match p i with
  | some (r, _) => some (r, i.take (i.length - r.length))
  | none => none

/-- `nom::combinator::peek`: run the parser without consuming. -/
def peek {α : Type} (p : NomP α) : NomP α := fun i =>
  match p i with
  | some (_, v) => some (i, v)
  | none => none

/-- `nom::combinator::flat_map`. -/
def flat_map {α β : Type} (p : NomP α) (f : α → NomP β) : NomP β := fun i =>
  match p i with
  | some (r, v) => f v r
  | none => none

/-- `nom::combinator::map_parser`: run `q` on the *output* of `p` (leftover
of `q` is discarded). -/
def mapParserP {β : Type} (p : NomP (List Char)) (q : NomP β) : NomP β := fun i =>
  match p i with
  | some (r, v) =>
    match q v with
    | some (_, b) => some (r, b)
    | none => none
  | none => none

/-- `nom::multi::many0`, fuelled.  nom aborts (errors) when the inner parser
succeeds without consuming, which is mirrored by the progress check; the
fuel is always sufficient because every accepted iteration strictly shrinks
the input. -/
def many0F {α : Type} (p : NomP α) : Nat → NomP (List α)
  | 0 => fun _ => none
  | fuel + 1 => fun i =>
    match p i with
    | none => some (i, [])
    | some (r, v) =>
      if r.length < i.length then
        match many0F p fuel r with
        | some (r2, vs) => some (r2, v :: vs)
        | none => none
      else none

/-- `nom::multi::many0`. -/
def many0 {α : Type} (p : NomP α) : NomP (List α) := fun i => many0F p (i.length + 1) i

/-- `nom::multi::many1`. -/
def many1 {α : Type} (p : NomP α) : NomP (List α) := fun i =>
  match p i with
  | none => none
  | some (r, v) =>
    if r.length < i.length then
      match many0 p r with
      | some (r2, vs) => some (r2, v :: vs)
      | none => none
    else none

/-! ## `src/control_file.rs` -/

/-- `field_name`: `[A-Za-z0-9][A-Za-z0-9-]*` immediately followed by `:`
(the `context(..)` wrapper in the source only annotates errors). -/
def field_name : NomP (List Char) :=
  terminated (recognize (pair alphanumeric1 (many0 (alt2 alphanumeric1 (tag ['-'])))))
    (charP ':')

/-- `my_non_line_ending`. -/
def my_non_line_ending : NomP (List Char) := take_while isNotEol

/-- `end_of_line_or_string`. -/
def end_of_line_or_string : NomP (List Char) := alt2 eof line_ending

/-- `line`. -/
def line : NomP (List Char) := recognize (pair my_non_line_ending end_of_line_or_string)

/-- `rest_of_line`. -/
def rest_of_line : NomP (List Char) :=
  recognize (pair (opt not_line_ending) end_of_line_or_string)

/-- `continuation_line`. -/
def continuation_line : NomP (List Char) :=
  recognize (pair space1 (pair my_non_line_ending end_of_line_or_string))

/-- `field_pair`. -/
def field_pair : NomP (List Char × List Char) :=
  separated_pair field_name space0 (recognize (pair rest_of_line (many0 continuation_line)))

/-- `field_string`. -/
def field_string : NomP (List Char) := recognize field_pair

/-- `specific_field_name`. -/
def specific_field_name (name : List Char) : NomP Unit :=
  value () (mapParserP field_name (tag name))

/-- `named_single_line_field`. -/
def named_single_line_field (name : List Char) : NomP (List Char) :=
  preceded (pair (specific_field_name name) space0) rest_of_line

/-- `named_multi_line_field`. -/
def named_multi_line_field (name : List Char) : NomP (List Char) :=
  preceded (pair (specific_field_name name) space0)
    (recognize (pair rest_of_line (many0 continuation_line)))

/-- The alternative applied once per continuation line inside
`clean_continuation_lines`: either the blank-line escape
(`space1`, `"."`, end of line) or stripping the indent (exactly the nominal
indent string, or else one up to `max_indent` spaces) before taking the rest
of the line. -/
def cleanContStep (indent : List Char) : NomP (List Char) :=
  alt2 (preceded (pair space1 (tag ['.'])) end_of_line_or_string)
    (preceded
      (alt2 (value () (tag indent))
        (value () (take_while_m_n 1 indent.length fun c => c == ' ')))
      rest_of_line)

/-- `clean_continuation_lines`. -/
def clean_continuation_lines (indent : List Char) : NomP (List (List Char)) :=
  many1 (cleanContStep indent)

/-- `clean_multiline`: first line, then (peeking the first continuation
line's leading blank run as nominal indent) the cleaned continuation lines,
with the first line prepended. -/
def clean_multiline : NomP (List (List Char)) :=
  map (pair line (flat_map (peek space1) clean_continuation_lines))
    fun x => x.1 :: x.2

/-- Modelled from the spec: `cleaned_multiline` is imported from the
control-file module by `copyright_file/mod.rs` but its definition is not
among the given sources.  Per the spec's cleaning algorithm, "(If there are
no continuation lines, the result is just the first line.)", so it behaves
as `clean_multiline` with a fallback to the bare first line. -/
def cleaned_multiline : NomP (List (List Char)) :=
  alt2 clean_multiline (map line fun l => [l])

/-- Modelled from the spec: `multi_line_field::<T>` is imported by
`copyright_file/fields.rs` but missing from the given sources; per the
spec's description of `named_multi_line_field(name)` it parses the field
named `T::NAME` together with its raw continuation lines. -/
def multi_line_field (name : List Char) : NomP (List Char) :=
  named_multi_line_field name

/-! ## `src/copyright_file/fields.rs` -/

/-- `Format(pub String)`. -/
structure Format where
  s : List Char
  deriving DecidableEq

/-- `UpstreamName(pub String)`. -/
structure UpstreamName where
  s : List Char
  deriving DecidableEq

/-- `UpstreamContact(pub String)`. -/
structure UpstreamContact where
  s : List Char
  deriving DecidableEq

/-- `Source(pub String)`. -/
structure Source where
  s : List Char
  deriving DecidableEq

/-- `Disclaimer(pub String)`. -/
structure Disclaimer where
  s : List Char
  deriving DecidableEq

/-- `Comment(pub String)`. -/
structure Comment where
  s : List Char
  deriving DecidableEq

/-- `License(pub String)`. -/
structure License where
  s : List Char
  deriving DecidableEq

/-- `Copyright(pub Vec<String>)`. -/
structure Copyright where
  items : List (List Char)
  deriving DecidableEq

/-- `Files(pub Vec<String>)`. -/
structure Files where
  items : List (List Char)
  deriving DecidableEq

/-- Rust `str::trim`: strip leading and trailing whitespace. -/
def trimList (s : List Char) : List Char :=
  ((s.dropWhile Char.isWhitespace).reverse.dropWhile Char.isWhitespace).reverse

/-- Rust `str::trim_end`: strip trailing whitespace. -/
def trimEndList (s : List Char) : List Char :=
  (s.reverse.dropWhile Char.isWhitespace).reverse

/-- `ParseField` for single-line fields (`SingleLineField + From<String>`):
the named single-line field's value wrapped into the field type. -/
def Format.parse : NomP Format :=
  map (named_single_line_field "Format".toList) Format.mk

/-- `ParseField` for `Upstream-Name` (single-line). -/
def UpstreamName.parse : NomP UpstreamName :=
  map (named_single_line_field "Upstream-Name".toList) UpstreamName.mk

/-- `ParseField` for `Upstream-Contact` (single-line). -/
def UpstreamContact.parse : NomP UpstreamContact :=
  map (named_single_line_field "Upstream-Contact".toList) UpstreamContact.mk

/-- `ParseField` for `Source` (single-line). -/
def Source.parse : NomP Source :=
  map (named_single_line_field "Source".toList) Source.mk

/-- `ParseField` for `Disclaimer` (multi-line). -/
def Disclaimer.parse : NomP Disclaimer :=
  map (multi_line_field "Disclaimer".toList) Disclaimer.mk

/-- `ParseField` for `Comment` (multi-line). -/
def Comment.parse : NomP Comment :=
  map (multi_line_field "Comment".toList) Comment.mk

/-- `ParseField` for `License` (multi-line). -/
def License.parse : NomP License :=
  map (multi_line_field "License".toList) License.mk

/-- `parse_field_with_trimmed_list`. -/
def parse_field_with_trimmed_list (name : List Char) : NomP (List (List Char)) :=
  map (many1 (multi_line_field name)) fun lines =>
    (lines.map trimList).filter fun s => !s.isEmpty

/-- `ParseField` for `Copyright` (trimmed list). -/
def Copyright.parse : NomP Copyright :=
  map (parse_field_with_trimmed_list "Copyright".toList) Copyright.mk

/-- `ParseField` for `Files` (trimmed list). -/
def Files.parse : NomP Files :=
  map (parse_field_with_trimmed_list "Files".toList) Files.mk

/-! ## `src/copyright_file/mod.rs`

The paragraph assemblers use `nom::branch::permutation` over a tuple of
field parsers.  nom's permutation keeps one result slot per parser and
loops: each round it walks the slots in order, skipping filled ones; the
first unfilled slot whose parser succeeds at the current position is filled
(consuming input) and the walk restarts; if a walk finishes with every slot
filled the permutation succeeds with the remaining input, and if it finishes
while some unfilled slot failed, the permutation fails.  `perm4Loop` /
`perm8Loop` transcribe that loop (fuelled by slot count + 1, which is exact
since every restart fills a slot). -/

/-- One slot visit of nom's permutation walk (`permutation_trait_inner!`):
if the slot is unfilled, run its parser — on success hand the value and the
advanced input to `fill` (the restarted loop), on failure fall through to
`pass` (the rest of the walk); a filled slot falls through directly. -/
def trySlot {σ β : Type} (s : Option σ) (p : NomP σ) (fill : σ → Input → Option β)
    (pass : Option β) (i : Input) : Option β :=
  match s with
  | none =>
    match p i with
    | some (i2, v) => fill v i2
    | none => pass
  | some _ => pass

/-- End of a permutation walk: if every slot is filled the permutation
succeeds with the remaining input, otherwise (some unfilled slot failed on
the walk) it errors. -/
def permDone4 {α₁ α₂ α₃ α₄ : Type} (i : Input) (s1 : Option α₁) (s2 : Option α₂)
    (s3 : Option α₃) (s4 : Option α₄) : Option (Input × (α₁ × α₂ × α₃ × α₄)) :=
  match s1, s2, s3, s4 with
  | some v1, some v2, some v3, some v4 => some (i, (v1, v2, v3, v4))
  | _, _, _, _ => none

/-- nom `permutation` over a 4-tuple of parsers (fuelled by slot count + 1,
which is exact since every restart fills a slot). -/
def perm4Loop {α₁ α₂ α₃ α₄ : Type} (p1 : NomP α₁) (p2 : NomP α₂) (p3 : NomP α₃)
    (p4 : NomP α₄) :
    Nat → Option α₁ → Option α₂ → Option α₃ → Option α₄ → NomP (α₁ × α₂ × α₃ × α₄)
  | 0, _, _, _, _ => fun _ => none
  | fuel + 1, s1, s2, s3, s4 => fun i =>
    trySlot s1 p1 (fun v i2 => perm4Loop p1 p2 p3 p4 fuel (some v) s2 s3 s4 i2)
      (trySlot s2 p2 (fun v i2 => perm4Loop p1 p2 p3 p4 fuel s1 (some v) s3 s4 i2)
        (trySlot s3 p3 (fun v i2 => perm4Loop p1 p2 p3 p4 fuel s1 s2 (some v) s4 i2)
          (trySlot s4 p4 (fun v i2 => perm4Loop p1 p2 p3 p4 fuel s1 s2 s3 (some v) i2)
            (permDone4 i s1 s2 s3 s4) i) i) i) i

/-- End of an 8-slot permutation walk. -/
def permDone8 {α₁ α₂ α₃ α₄ α₅ α₆ α₇ α₈ : Type} (i : Input) (s1 : Option α₁)
    (s2 : Option α₂) (s3 : Option α₃) (s4 : Option α₄) (s5 : Option α₅) (s6 : Option α₆)
    (s7 : Option α₇) (s8 : Option α₈) :
    Option (Input × (α₁ × α₂ × α₃ × α₄ × α₅ × α₆ × α₇ × α₈)) :=
  match s1, s2, s3, s4, s5, s6, s7, s8 with
  | some v1, some v2, some v3, some v4, some v5, some v6, some v7, some v8 =>
    some (i, (v1, v2, v3, v4, v5, v6, v7, v8))
  | _, _, _, _, _, _, _, _ => none

/-- nom `permutation` over an 8-tuple of parsers. -/
def perm8Loop {α₁ α₂ α₃ α₄ α₅ α₆ α₇ α₈ : Type} (p1 : NomP α₁) (p2 : NomP α₂)
    (p3 : NomP α₃) (p4 : NomP α₄) (p5 : NomP α₅) (p6 : NomP α₆) (p7 : NomP α₇)
    (p8 : NomP α₈) :
    Nat → Option α₁ → Option α₂ → Option α₃ → Option α₄ → Option α₅ → Option α₆ →
      Option α₇ → Option α₈ → NomP (α₁ × α₂ × α₃ × α₄ × α₅ × α₆ × α₇ × α₈)
  | 0, _, _, _, _, _, _, _, _ => fun _ => none
  | fuel + 1, s1, s2, s3, s4, s5, s6, s7, s8 => fun i =>
    trySlot s1 p1
      (fun v i2 => perm8Loop p1 p2 p3 p4 p5 p6 p7 p8 fuel (some v) s2 s3 s4 s5 s6 s7 s8 i2)
      (trySlot s2 p2
        (fun v i2 => perm8Loop p1 p2 p3 p4 p5 p6 p7 p8 fuel s1 (some v) s3 s4 s5 s6 s7 s8 i2)
        (trySlot s3 p3
          (fun v i2 => perm8Loop p1 p2 p3 p4 p5 p6 p7 p8 fuel s1 s2 (some v) s4 s5 s6 s7 s8 i2)
          (trySlot s4 p4
            (fun v i2 => perm8Loop p1 p2 p3 p4 p5 p6 p7 p8 fuel s1 s2 s3 (some v) s5 s6 s7 s8 i2)
            (trySlot s5 p5
              (fun v i2 => perm8Loop p1 p2 p3 p4 p5 p6 p7 p8 fuel s1 s2 s3 s4 (some v) s6 s7 s8 i2)
              (trySlot s6 p6
                (fun v i2 => perm8Loop p1 p2 p3 p4 p5 p6 p7 p8 fuel s1 s2 s3 s4 s5 (some v) s7 s8 i2)
                (trySlot s7 p7
                  (fun v i2 => perm8Loop p1 p2 p3 p4 p5 p6 p7 p8 fuel s1 s2 s3 s4 s5 s6 (some v) s8 i2)
                  (trySlot s8 p8
                    (fun v i2 => perm8Loop p1 p2 p3 p4 p5 p6 p7 p8 fuel s1 s2 s3 s4 s5 s6 s7 (some v) i2)
                    (permDone8 i s1 s2 s3 s4 s5 s6 s7 s8) i) i) i) i) i) i) i) i

/-- `HeaderParagraph`. -/
structure HeaderParagraph where
  format : Format
  upstream_name : Option UpstreamName
  upstream_contact : Option UpstreamContact
  source : Option Source
  disclaimer : Option Disclaimer
  comment : Option Comment
  license : Option License
  copyright : Option Copyright
  deriving DecidableEq

/-- `header_paragraph`: `permutation((Format::parse, opt(UpstreamName::parse),
..., opt(Copyright::parse)))` mapped into `HeaderParagraph`. -/
def header_paragraph : NomP HeaderParagraph :=
  map (perm8Loop Format.parse (opt UpstreamName.parse) (opt UpstreamContact.parse)
      (opt Source.parse) (opt Disclaimer.parse) (opt Comment.parse) (opt License.parse)
      (opt Copyright.parse) 9 none none none none none none none none)
    fun x =>
      ⟨x.1, x.2.1, x.2.2.1, x.2.2.2.1, x.2.2.2.2.1, x.2.2.2.2.2.1, x.2.2.2.2.2.2.1,
        x.2.2.2.2.2.2.2⟩

/-- `FilesParagraph`. -/
structure FilesParagraph where
  files : Files
  copyright : Copyright
  license : License
  comment : Option Comment
  deriving DecidableEq

/-- `files_paragraph`: `permutation((Files::parse, Copyright::parse,
License::parse, opt(Comment::parse)))` mapped into `FilesParagraph`. -/
def files_paragraph : NomP FilesParagraph :=
  map (perm4Loop Files.parse Copyright.parse License.parse (opt Comment.parse)
      5 none none none none)
    fun x => ⟨x.1, x.2.1, x.2.2.1, x.2.2.2⟩

/-- `LicenseDetailParagraph`. -/
structure LicenseDetailParagraph where
  name : List Char
  text : List Char
  deriving DecidableEq

/-- `license_detail_paragraph`: the cleaned lines of a multi-line `License`
field, the first being the short name, the rest (right-trimmed, rejoined
with newlines) the license text.  The empty-lines case is unreachable (the
source unwraps) because `cleaned_multiline` yields at least one line. -/
def license_detail_paragraph : NomP LicenseDetailParagraph :=
  map (mapParserP (named_multi_line_field "License".toList) cleaned_multiline)
    fun lines =>
      match lines with
      | [] => ⟨[], []⟩
      | nm :: rest => ⟨nm, List.intercalate ['\n'] (rest.map trimEndList)⟩

/-- `BodyParagraph`. -/
inductive BodyParagraph where
  | Files : FilesParagraph → BodyParagraph
  | LicenseDetail : LicenseDetailParagraph → BodyParagraph
  deriving DecidableEq

/-- `body_paragraph`: skip blank lines, then a files paragraph or else a
license-detail paragraph. -/
def body_paragraph : NomP BodyParagraph :=
  preceded (many0 (pair space0 line_ending))
    (alt2 (map files_paragraph BodyParagraph.Files)
      (map license_detail_paragraph BodyParagraph.LicenseDetail))

/-- `CopyrightFile`. -/
structure CopyrightFile where
  header_paragraph : HeaderParagraph
  body_paragraphs : List BodyParagraph
  deriving DecidableEq

/-- `copyright_file`: optional leading blank lines, one header paragraph,
any number of body paragraphs, optional trailing blanks (note: `space0`
only, and no end-of-input check). -/
def copyright_file : NomP CopyrightFile :=
  map (delimited (many0 (pair space0 line_ending))
      (pair header_paragraph (many0 body_paragraph)) space0)
    fun x => ⟨x.1, x.2⟩

/-! ## Concrete inputs used by the claim theorems -/

/-- The two-stanza example document of the end-to-end scenario (no trailing
newline after the final `MIT`). -/
def c2Input : Input :=
  ("Format: https://www.debian.org/doc/packaging-manuals/copyright-format/1.0/\n" ++
    "\nFiles: README.md\nCopyright: 2020, Example Org.\nLicense: MIT").toList

/-- The value `copyright_file` actually produces on `c2Input`: note the
header format retains its trailing line terminator. -/
def c2Actual : CopyrightFile :=
  ⟨⟨⟨("https://www.debian.org/doc/packaging-manuals/copyright-format/1.0/\n").toList⟩,
      none, none, none, none, none, none, none⟩,
    [BodyParagraph.Files
      ⟨⟨["README.md".toList]⟩, ⟨["2020, Example Org.".toList]⟩, ⟨"MIT".toList⟩, none⟩]⟩

/-! ## Helper lemmas about list scanning -/

theorem takeWhile_append_all {p : Char → Bool} {xs : List Char} (ys : List Char)
    (h : ∀ x ∈ xs, p x = true) :
    (xs ++ ys).takeWhile p = xs ++ ys.takeWhile p := by
  induction xs with
  | nil => simp
  | cons a l ih =>
    have ha : p a = true := h a (by simp)
    have ih' := ih fun x hx => h x (by simp [hx])
    simp [List.takeWhile_cons, ha, ih']

theorem dropWhile_append_all {p : Char → Bool} {xs : List Char} (ys : List Char)
    (h : ∀ x ∈ xs, p x = true) :
    (xs ++ ys).dropWhile p = ys.dropWhile p := by
  induction xs with
  | nil => simp
  | cons a l ih =>
    have ha : p a = true := h a (by simp)
    have ih' := ih fun x hx => h x (by simp [hx])
    simp [List.dropWhile_cons, ha, ih']

theorem takeWhile_eq_nil_of_head {p : Char → Bool} {l : List Char}
    (h : ∀ ch, l.head? = some ch → p ch = false) : l.takeWhile p = [] := by
  cases l with
  | nil => simp
  | cons a t => simp [List.takeWhile_cons, h a rfl]

theorem dropWhile_eq_self_of_head {p : Char → Bool} {l : List Char}
    (h : ∀ ch, l.head? = some ch → p ch = false) : l.dropWhile p = l := by
  cases l with
  | nil => simp
  | cons a t => simp [List.dropWhile_cons, h a rfl]

theorem dropWhile_head_false {p : Char → Bool} :
    ∀ {l : List Char} {c : Char} {t : List Char}, l.dropWhile p = c :: t → p c = false := by
  intro l
  induction l with
  | nil => intro c t h; simp at h
  | cons a l ih =>
    intro c t h
    by_cases hpa : p a = true
    · rw [List.dropWhile_cons, if_pos hpa] at h
      exact ih h
    · rw [List.dropWhile_cons, if_neg hpa] at h
      injection h with h1 _
      subst h1
      exact Bool.eq_false_iff.mpr hpa

theorem dropWhile_dropWhile_imp {p q : Char → Bool} (himp : ∀ c, p c = true → q c = true)
    (l : List Char) : (l.dropWhile p).dropWhile q = l.dropWhile q := by
  induction l with
  | nil => simp
  | cons a t ih =>
    by_cases hpa : p a = true
    · rw [List.dropWhile_cons, if_pos hpa, ih, List.dropWhile_cons, if_pos (himp a hpa)]
    · rw [List.dropWhile_cons, if_neg hpa]

theorem take_len_append (xs ys : List Char) :
    (xs ++ ys).take ((xs ++ ys).length - ys.length) = xs := by
  have h : (xs ++ ys).length - ys.length = xs.length := by
    simp [List.length_append]
  rw [h, List.take_left]

/-- `isNotEol` holds for any character that is neither `'\n'` nor `'\r'`. -/
theorem isNotEol_of {ch : Char} (h1 : ch ≠ '\n') (h2 : ch ≠ '\r') : isNotEol ch = true := by
  simp [isNotEol, Bool.and_eq_true, bne_iff_ne]
  exact ⟨h1, h2⟩

/-! ## Helper lemmas about the nom primitives -/

theorem tag_self_append (t rest : List Char) : tag t (t ++ rest) = some (rest, t) := by
  have hp : t.isPrefixOf (t ++ rest) = true :=
    List.isPrefixOf_iff_prefix.mpr (List.prefix_append t rest)
  simp [tag, hp, List.drop_left]

theorem tag_dot_cons {a : Char} (l : List Char) (h : a ≠ '.') : tag ['.'] (a :: l) = none := by
  have hp : List.isPrefixOf ['.'] (a :: l) = false := by
    simp [List.isPrefixOf, Bool.and_eq_false_iff]
    intro he
    exact absurd he.symm h
  simp [tag, hp]

theorem tag_nil_none {t : List Char} (h : t ≠ []) : tag t [] = none := by
  cases t with
  | nil => exact absurd rfl h
  | cons a l => simp [tag, List.isPrefixOf]

theorem eol_nil : end_of_line_or_string [] = some ([], []) := by
  simp [end_of_line_or_string, alt2, eof]

theorem eol_newline (R : List Char) : end_of_line_or_string ('\n' :: R) = some (R, ['\n']) := by
  simp [end_of_line_or_string, alt2, eof, line_ending]

theorem eol_none {a : Char} (l : List Char) (h1 : a ≠ '\n') (h2 : a ≠ '\r') :
    end_of_line_or_string (a :: l) = none := by
  simp [end_of_line_or_string, alt2, eof, line_ending, h1, h2]

/-- `space1` on a run of `j ≥ 1` spaces followed by a non-blank-headed rest. -/
theorem space1_replicate {j : Nat} (hj : 1 ≤ j) {z : List Char}
    (hz : ∀ ch, z.head? = some ch → isSpaceTab ch = false) :
    space1 (List.replicate j ' ' ++ z) = some (z, List.replicate j ' ') := by
  have hall : ∀ x ∈ List.replicate j ' ', isSpaceTab x = true := by
    intro x hx
    rw [List.eq_of_mem_replicate hx]
    rfl
  have htk : (List.replicate j ' ' ++ z).takeWhile isSpaceTab = List.replicate j ' ' := by
    rw [takeWhile_append_all z hall, takeWhile_eq_nil_of_head hz, List.append_nil]
  have hdr : (List.replicate j ' ' ++ z).dropWhile isSpaceTab = z := by
    rw [dropWhile_append_all z hall, dropWhile_eq_self_of_head hz]
  have hne : (List.replicate j ' ').isEmpty = false := by
    cases j with
    | zero => omega
    | succ n => simp [List.replicate_succ]
  simp [space1, take_while1, htk, hdr, hne]

/-- `rest_of_line` on a terminator-free prefix followed by `'\n'`. -/
theorem rest_of_line_spec (c R : List Char) (hc : ∀ ch ∈ c, isNotEol ch = true) :
    rest_of_line (c ++ '\n' :: R) = some (R, c ++ ['\n']) := by
  have htk : (c ++ '\n' :: R).takeWhile isNotEol = c := by
    rw [takeWhile_append_all _ hc, takeWhile_eq_nil_of_head]
    · rw [List.append_nil]
    · intro ch h
      injection h with h
      subst h
      rfl
  have hdr : (c ++ '\n' :: R).dropWhile isNotEol = '\n' :: R := by
    rw [dropWhile_append_all _ hc, dropWhile_eq_self_of_head]
    intro ch h
    injection h with h
    subst h
    rfl
  have hcr : crOk ('\n' :: R) = true := by simp [crOk]
  have hnle : not_line_ending (c ++ '\n' :: R) = some ('\n' :: R, c) := by
    simp [not_line_ending, htk, hdr, hcr]
  have hshape : c ++ '\n' :: R = (c ++ ['\n']) ++ R := by simp
  simp only [rest_of_line, recognize, pair, opt, hnle, eol_newline]
  rw [hshape, take_len_append]

/-- `rest_of_line` at end of input on a terminator-free tail. -/
theorem rest_of_line_eof (c : List Char) (hc : ∀ ch ∈ c, isNotEol ch = true) :
    rest_of_line c = some ([], c) := by
  have htk : c.takeWhile isNotEol = c := List.takeWhile_eq_self_iff.mpr hc
  have hdr : c.dropWhile isNotEol = [] := List.dropWhile_eq_nil_iff.mpr hc
  have hnle : not_line_ending c = some ([], c) := by
    simp [not_line_ending, htk, hdr, crOk]
  simp only [rest_of_line, recognize, pair, opt, hnle, eol_nil]
  simp

/-! ## Claim theorems -/

/-- C5: `clean_multiline` applied to `"0\n  a\n    .\n  b"` succeeds,
consumes the entire input, and returns exactly
`["0\n", "a\n", "\n", "b"]`: the lone-`"."` continuation line is replaced by
the empty (blank) logical line. -/
theorem c5_clean_multiline_blank_escape :
    clean_multiline "0\n  a\n    .\n  b".toList =
      some ([], ["0\n".toList, "a\n".toList, "\n".toList, "b".toList]) := by
  decide

/-- C1 (evaluation at the failing input): `header_paragraph` is *not*
order-invariant.  With the optional fields in slot order
(`Upstream-Name` before `Upstream-Contact`) both are extracted; with the
two lines swapped, the `Upstream-Name` slot has already been latched to
`None` when its field is reached, so the resulting `HeaderParagraph`
differs and the `Upstream-Name` line is left unconsumed. -/
theorem c1_header_not_order_invariant :
    header_paragraph "Format: f\nUpstream-Name: n\nUpstream-Contact: c\n".toList =
        some ([],
          ⟨⟨"f\n".toList⟩, some ⟨"n\n".toList⟩, some ⟨"c\n".toList⟩,
            none, none, none, none, none⟩) ∧
      header_paragraph "Format: f\nUpstream-Contact: c\nUpstream-Name: n\n".toList =
        some ("Upstream-Name: n\n".toList,
          ⟨⟨"f\n".toList⟩, none, some ⟨"c\n".toList⟩,
            none, none, none, none, none⟩) ∧
      (⟨⟨"f\n".toList⟩, some ⟨"n\n".toList⟩, some ⟨"c\n".toList⟩,
          none, none, none, none, none⟩ : HeaderParagraph) ≠
        ⟨⟨"f\n".toList⟩, none, some ⟨"c\n".toList⟩, none, none, none, none, none⟩ := by
  refine ⟨by decide, by decide, by decide⟩

/-- C2 (counterexample): the header format produced for the example document
is the URL *with its trailing line terminator*, hence not exactly
`"https://www.debian.org/doc/packaging-manuals/copyright-format/1.0/"` as
the claim states. -/
theorem c2_format_keeps_terminator :
    copyright_file c2Input = some ([], c2Actual) ∧
      c2Actual.header_paragraph.format ≠
        ⟨"https://www.debian.org/doc/packaging-manuals/copyright-format/1.0/".toList⟩ := by
  refine ⟨by decide, by decide⟩

/-- C2 (amended): parsing the example document succeeds consuming all input
and yields a header whose format is the URL including its line terminator,
and exactly one `FilesParagraph` with files `["README.md"]`, copyright
`["2020, Example Org."]`, license exactly `"MIT"`, and no comment. -/
theorem c2_end_to_end :
    copyright_file c2Input =
      some ([],
        ⟨⟨⟨("https://www.debian.org/doc/packaging-manuals/copyright-format/1.0/\n").toList⟩,
            none, none, none, none, none, none, none⟩,
          [BodyParagraph.Files
            ⟨⟨["README.md".toList]⟩, ⟨["2020, Example Org.".toList]⟩,
              ⟨"MIT".toList⟩, none⟩]⟩) := by
  decide

/-- C3 (counterexample): on an input consisting of one line directly
followed by end of input, `clean_multiline` does *not* succeed: it demands
at least one continuation line. -/
theorem c3_single_line_fails :
    clean_multiline "x".toList = none := by
  decide

/-- C4 (counterexample): with nominal indent `"  "` (m = 2), the
continuation line `"    .\n"` is indented by more than m spaces, but instead
of having exactly 2 spaces stripped (which would clean it to `"  .\n"`) it
is captured by the blank-line escape and cleaned to `"\n"`. -/
theorem c4_overindented_dot_escapes :
    cleanContStep "  ".toList "    .\nrest".toList = some ("rest".toList, "\n".toList) ∧
      "\n".toList ≠ "  .\n".toList := by
  refine ⟨by decide, by decide⟩

/-- C6 (counterexample): a header stanza containing the unrecognized field
`X` after `Format` does *not* make `header_paragraph` fail: assembly
succeeds and the unknown field is left pending as unconsumed input. -/
theorem c6_unknown_field_accepted :
    header_paragraph "Format: f\nX: y\n".toList =
      some ("X: y\n".toList,
        ⟨⟨"f\n".toList⟩, none, none, none, none, none, none, none⟩) ∧
      "X: y\n".toList ≠ ([] : Input) := by
  refine ⟨by decide, by decide⟩

/-- C7 (counterexample): `copyright_file` succeeds on an input whose
non-whitespace tail `"Q: x\n"` is not consumed: success does not imply the
entire input was consumed. -/
theorem c7_succeeds_with_leftover :
    copyright_file "Format: f\nQ: x\n".toList =
      some ("Q: x\n".toList,
        ⟨⟨⟨"f\n".toList⟩, none, none, none, none, none, none, none⟩, []⟩) ∧
      "Q: x\n".toList ≠ ([] : Input) := by
  refine ⟨by decide, by decide⟩

/-- C8 (counterexample): for the field name `A` and the value `" x"`
(no line terminators, but starting with a space), parsing `"A:  x\n"`
yields `"x\n"`, not the value `" x"` with its terminator: the `space0`
after the colon also swallows the value's leading blanks. -/
theorem c8_leading_space_swallowed :
    named_single_line_field "A".toList "A:  x\n".toList = some ([], "x\n".toList) ∧
      "x\n".toList ≠ " x\n".toList := by
  refine ⟨by decide, by decide⟩

/-- C9 (counterexample): `field_pair` succeeds on `"N: v\n a\rb"` leaving
the rest `" a\rb"`, which begins with whitespace — the would-be continuation
line is rejected only because of its bare carriage return, so the remaining
input *can* start with whitespace. -/
theorem c9_rest_can_start_with_space :
    field_pair "N: v\n a\rb".toList =
      some (" a\rb".toList, ("N".toList, "v\n".toList)) ∧
      isSpaceTab ' ' = true := by
  refine ⟨by decide, by decide⟩

/-! ## The blank-line escape and indent-stripping branches -/

/-- The blank-line-escape branch on a lone-`"."` line: any `j ≥ 1` leading
spaces, `"."`, then a newline; it yields the bare terminator. -/
theorem branch1_dot {j : Nat} (hj : 1 ≤ j) (R : List Char) :
    preceded (pair space1 (tag ['.'])) end_of_line_or_string
      (List.replicate j ' ' ++ ('.' :: '\n' :: R)) = some (R, ['\n']) := by
  have hsp := space1_replicate hj (z := '.' :: '\n' :: R)
    (by intro ch h; injection h with h; subst h; decide)
  have htag : tag ['.'] ('.' :: '\n' :: R) = some ('\n' :: R, ['.']) :=
    tag_self_append ['.'] ('\n' :: R)
  simp [preceded, map, pair, hsp, htag, eol_newline]

/-- The blank-line-escape branch fails on a continuation line whose content
is not exactly `"."`. -/
theorem branch1_not_dot {j : Nat} (hj : 1 ≤ j) {c : List Char} (R : List Char)
    (hc : ∀ ch ∈ c, ch ≠ '\n' ∧ ch ≠ '\r')
    (hh : ∀ ch, c.head? = some ch → isSpaceTab ch = false)
    (hne : c ≠ ['.']) :
    preceded (pair space1 (tag ['.'])) end_of_line_or_string
      (List.replicate j ' ' ++ (c ++ '\n' :: R)) = none := by
  have hz : ∀ ch, (c ++ '\n' :: R).head? = some ch → isSpaceTab ch = false := by
    cases c with
    | nil => intro ch h; injection h with h; subst h; decide
    | cons d c' => intro ch h; injection h with h; subst h; exact hh _ rfl
  have hsp := space1_replicate hj hz
  cases c with
  | nil =>
    have htag : tag ['.'] ('\n' :: R) = none := tag_dot_cons _ (by decide)
    simp only [List.nil_append] at hsp
    simp [preceded, map, pair, hsp, htag]
  | cons d c' =>
    by_cases hd : d = '.'
    · subst hd
      cases c' with
      | nil => exact absurd rfl hne
      | cons e c'' =>
        have htag : tag ['.'] (('.' :: e :: c'') ++ '\n' :: R) =
            some ((e :: c'') ++ '\n' :: R, ['.']) := tag_self_append ['.'] _
        have he := hc e (by simp)
        have heol : end_of_line_or_string (e :: (c'' ++ '\n' :: R)) = none :=
          eol_none _ he.1 he.2
        simp only [List.cons_append] at hsp htag ⊢
        simp [preceded, map, pair, hsp, htag, heol]
    · have htag : tag ['.'] ((d :: c') ++ '\n' :: R) = none := by
        simp only [List.cons_append]
        exact tag_dot_cons _ hd
      simp only [List.cons_append] at hsp htag ⊢
      simp [preceded, map, pair, hsp, htag]

/-- `tag` on the nominal indent fails when fewer than `m` spaces are
present. -/
theorem tag_replicate_fail {m k : Nat} (hk : k < m) {z : List Char}
    (hz : ∀ ch, z.head? = some ch → isSpaceTab ch = false) :
    tag (List.replicate m ' ') (List.replicate k ' ' ++ z) = none := by
  have hnp : (List.replicate m ' ').isPrefixOf (List.replicate k ' ' ++ z) = false := by
    by_contra hcon
    have hpre : List.replicate m ' ' <+: List.replicate k ' ' ++ z :=
      List.isPrefixOf_iff_prefix.mp (Bool.not_eq_false _ ▸ hcon)
    have htake := List.prefix_iff_eq_take.mp hpre
    rw [List.length_replicate, List.take_append_eq_append_take,
      List.take_of_length_le (by simp; omega), List.length_replicate] at htake
    have hsplit : List.replicate m ' ' = List.replicate k ' ' ++ List.replicate (m - k) ' ' := by
      rw [← List.replicate_add]
      congr 1
      omega
    have hz' : List.replicate (m - k) ' ' = z.take (m - k) :=
      List.append_cancel_left (hsplit ▸ htake)
    obtain ⟨d, hd⟩ : ∃ d, m - k = d + 1 := ⟨m - k - 1, by omega⟩
    rw [hd, List.replicate_succ] at hz'
    cases z with
    | nil => simp at hz'
    | cons zh zt =>
      rw [List.take_succ_cons] at hz'
      injection hz' with h1 _
      have := hz zh rfl
      rw [← h1] at this
      simp [isSpaceTab] at this
  simp [tag, hnp]

/-- The fallback indent-stripping parser takes all `k` spaces when
`1 ≤ k ≤ m`. -/
theorem take_up_to_spec {k m : Nat} (h1 : 1 ≤ k) (hkm : k ≤ m) {z : List Char}
    (hz : ∀ ch, z.head? = some ch → isSpaceTab ch = false) :
    take_while_m_n 1 m (fun c => c == ' ') (List.replicate k ' ' ++ z) =
      some (z, List.replicate k ' ') := by
  have hz' : ∀ ch, z.head? = some ch → (ch == ' ') = false := by
    intro ch h
    have := hz ch h
    simp [isSpaceTab] at this
    simp [this.1]
  have htk : (List.replicate k ' ' ++ z).takeWhile (fun c => c == ' ') =
      List.replicate k ' ' := by
    rw [takeWhile_append_all z (by intro x hx; rw [List.eq_of_mem_replicate hx]; decide),
      takeWhile_eq_nil_of_head hz', List.append_nil]
  have htake : (List.replicate k ' ').take m = List.replicate k ' ' :=
    List.take_of_length_le (by simp; omega)
  have hdrop : (List.replicate k ' ' ++ z).drop (List.replicate k ' ').length = z :=
    List.drop_left _ _
  simp only [take_while_m_n, htk, htake]
  rw [if_neg (by simp; omega)]
  rw [List.length_replicate] at hdrop ⊢
  rw [hdrop]

/-! ## General claim theorems (C10, C3, C4) -/

/-- C10: in the multiline cleaner, a continuation line made of any positive
number of leading spaces (independent of — possibly exceeding — the nominal
indent, which is not consulted) followed by exactly `"."` and a line
terminator (resp. end of input) is cleaned by the blank-line-escape
alternative, which is tried first, to the empty logical line (the bare
terminator, resp. the empty string). -/
theorem c10_blank_escape_first (indent : List Char) (n : Nat) (hn : 1 ≤ n) (R : List Char) :
    cleanContStep indent (List.replicate n ' ' ++ ('.' :: '\n' :: R)) = some (R, ['\n']) ∧
      cleanContStep indent (List.replicate n ' ' ++ ['.']) = some ([], []) := by
  constructor
  · have h1 := branch1_dot hn R
    simp [cleanContStep, alt2, h1]
  · have hsp := space1_replicate hn (z := ['.'])
      (by intro ch h; injection h with h; subst h; decide)
    have htag : tag ['.'] ['.'] = some ([], ['.']) := by
      have := tag_self_append ['.'] []
      simpa using this
    simp [cleanContStep, alt2, preceded, map, pair, hsp, htag, eol_nil]

/-- C10 witness. -/
theorem c10_blank_escape_first_witness :
    cleanContStep "  ".toList (List.replicate 4 ' ' ++ ('.' :: '\n' :: "x".toList)) =
        some ("x".toList, ['\n']) ∧
      cleanContStep "  ".toList (List.replicate 4 ' ' ++ ['.']) = some ([], []) :=
  c10_blank_escape_first "  ".toList 4 (by decide) "x".toList

/-- `line` on a terminator-free prefix followed by `'\n'`. -/
theorem line_spec_nl (c R : List Char) (hc : ∀ ch ∈ c, isNotEol ch = true) :
    line (c ++ '\n' :: R) = some (R, c ++ ['\n']) := by
  have htk : (c ++ '\n' :: R).takeWhile isNotEol = c := by
    rw [takeWhile_append_all _ hc, takeWhile_eq_nil_of_head]
    · rw [List.append_nil]
    · intro ch h
      injection h with h
      subst h
      decide
  have hdr : (c ++ '\n' :: R).dropWhile isNotEol = '\n' :: R := by
    rw [dropWhile_append_all _ hc, dropWhile_eq_self_of_head]
    intro ch h
    injection h with h
    subst h
    decide
  have hshape : c ++ '\n' :: R = (c ++ ['\n']) ++ R := by simp
  simp only [line, recognize, pair, my_non_line_ending, take_while, htk, hdr, eol_newline]
  rw [hshape, take_len_append]

/-- `line` on a terminator-free tail at end of input. -/
theorem line_spec_eof (c : List Char) (hc : ∀ ch ∈ c, isNotEol ch = true) :
    line c = some ([], c) := by
  have htk : c.takeWhile isNotEol = c := List.takeWhile_eq_self_iff.mpr hc
  have hdr : c.dropWhile isNotEol = [] := List.dropWhile_eq_nil_iff.mpr hc
  simp only [line, recognize, pair, my_non_line_ending, take_while, htk, hdr, eol_nil]
  simp [List.take_length]

/-- C3 (amended): on an input consisting of a single line followed directly
by end of input (no continuation lines), `clean_multiline` itself *fails* —
it requires at least one continuation line — while the cleaned wrapper
`cleaned_multiline` (spec-modelled) succeeds and returns just that first
line, unchanged. -/
theorem c3_single_line (c t : List Char)
    (hc : ∀ ch ∈ c, ch ≠ '\n' ∧ ch ≠ '\r')
    (ht : t = [] ∨ t = ['\n']) :
    clean_multiline (c ++ t) = none ∧ cleaned_multiline (c ++ t) = some ([], [c ++ t]) := by
  have hcb : ∀ ch ∈ c, isNotEol ch = true := fun ch h => isNotEol_of (hc ch h).1 (hc ch h).2
  have hline : line (c ++ t) = some ([], c ++ t) := by
    rcases ht with rfl | rfl
    · rw [List.append_nil]
      exact line_spec_eof c hcb
    · exact line_spec_nl c [] hcb
  have hnone : clean_multiline (c ++ t) = none := by
    simp [clean_multiline, map, pair, hline, flat_map, peek, space1, take_while1]
  refine ⟨hnone, ?_⟩
  simp [cleaned_multiline, alt2, hnone, map, hline]

/-- C3 witness. -/
theorem c3_single_line_witness :
    clean_multiline ("x".toList ++ []) = none ∧
      cleaned_multiline ("x".toList ++ []) = some ([], ["x".toList ++ []]) :=
  c3_single_line "x".toList [] (by decide) (Or.inl rfl)

/-- C4 (amended): with nominal indent the `m ≥ 1` leading spaces of the
first continuation line, a subsequent continuation line carrying `k` spaces
and content `c` (no terminators, not starting with a blank):
if `1 ≤ k < m` it is cleaned exactly like the nominally-indented line, and
if `k > m` *and the content is not exactly `"."`* exactly `m` spaces are
stripped, the excess being preserved in the output
(an over-indented lone-`"."` line is instead taken by the blank-line
escape, see the counterexample). -/
theorem c4_indent_tolerance (m k : Nat) (c R : List Char) (hm : 1 ≤ m)
    (hc : ∀ ch ∈ c, ch ≠ '\n' ∧ ch ≠ '\r')
    (hh : ∀ ch, c.head? = some ch → isSpaceTab ch = false) :
    (1 ≤ k → k < m →
      cleanContStep (List.replicate m ' ') (List.replicate k ' ' ++ (c ++ '\n' :: R)) =
        cleanContStep (List.replicate m ' ') (List.replicate m ' ' ++ (c ++ '\n' :: R))) ∧
    (m < k → c ≠ ['.'] →
      cleanContStep (List.replicate m ' ') (List.replicate k ' ' ++ (c ++ '\n' :: R)) =
        some (R, (List.replicate (k - m) ' ' ++ c) ++ ['\n'])) := by
  have hcb : ∀ ch ∈ c, isNotEol ch = true := fun ch h => isNotEol_of (hc ch h).1 (hc ch h).2
  have hz : ∀ ch, (c ++ '\n' :: R).head? = some ch → isSpaceTab ch = false := by
    cases c with
    | nil => intro ch h; injection h with h; subst h; decide
    | cons d c' => intro ch h; injection h with h; subst h; exact hh _ rfl
  have hrol : rest_of_line (c ++ '\n' :: R) = some (R, c ++ ['\n']) := rest_of_line_spec c R hcb
  constructor
  · intro hk1 hkm
    by_cases hdot : c = ['.']
    · subst hdot
      have e1 := branch1_dot hk1 R
      have e2 := branch1_dot hm R
      simp only [List.cons_append, List.nil_append] at e1 e2
      simp only [cleanContStep, alt2, List.cons_append, List.nil_append, e1, e2]
    · have e1 := branch1_not_dot hk1 R hc hh hdot
      have e2 := branch1_not_dot hm R hc hh hdot
      have htagk := tag_replicate_fail hkm hz
      have htagm : tag (List.replicate m ' ') (List.replicate m ' ' ++ (c ++ '\n' :: R)) =
          some (c ++ '\n' :: R, List.replicate m ' ') := tag_self_append _ _
      have hup := take_up_to_spec hk1 (Nat.le_of_lt hkm) hz
      simp only [cleanContStep, alt2, e1, e2]
      simp only [preceded, map, pair, value, alt2, List.length_replicate, htagk, htagm,
        hup, hrol]
  · intro hk hdot
    have e1 := branch1_not_dot (Nat.le_trans hm (Nat.le_of_lt hk)) R hc hh hdot
    have hsplit : List.replicate k ' ' = List.replicate m ' ' ++ List.replicate (k - m) ' ' := by
      rw [← List.replicate_add]
      congr 1
      omega
    have htag : tag (List.replicate m ' ') (List.replicate k ' ' ++ (c ++ '\n' :: R)) =
        some (List.replicate (k - m) ' ' ++ (c ++ '\n' :: R), List.replicate m ' ') := by
      rw [hsplit, List.append_assoc]
      exact tag_self_append _ _
    have hrol2 : rest_of_line (List.replicate (k - m) ' ' ++ (c ++ '\n' :: R)) =
        some (R, (List.replicate (k - m) ' ' ++ c) ++ ['\n']) := by
      have : List.replicate (k - m) ' ' ++ (c ++ '\n' :: R) =
          (List.replicate (k - m) ' ' ++ c) ++ '\n' :: R := by simp
      rw [this]
      refine rest_of_line_spec _ R ?_
      intro ch hch
      rcases List.mem_append.mp hch with hsp | hcc
      · rw [List.eq_of_mem_replicate hsp]; decide
      · exact hcb ch hcc
    simp only [cleanContStep, alt2, e1]
    simp only [preceded, map, pair, value, alt2, List.length_replicate, htag, hrol2]

/-! ## The field-name muncher and the single-line field parser -/

/-- Well-formedness of a field name: `[A-Za-z0-9][A-Za-z0-9-]*`. -/
def validFieldName (N : List Char) : Bool :=
  match N with
  | [] => false
  | c :: cs => c.isAlphanum && cs.all fun ch => ch.isAlphanum || ch == '-'

/-- The character class accepted inside a field name after its first
character. -/
def isNameChar (c : Char) : Bool := c.isAlphanum || c == '-'

/-- The `many0 (alt ((alphanumeric1, tag "-")))` loop inside `field_name`
consumes exactly the maximal run of name characters. -/
theorem many0F_munch : ∀ (fuel : Nat) (j : Input), j.length < fuel →
    ∃ vs, many0F (alt2 alphanumeric1 (tag ['-'])) fuel j =
      some (j.dropWhile isNameChar, vs) := by
  intro fuel
  induction fuel with
  | zero => intro j h; omega
  | succ fuel ih =>
    intro j hj
    cases j with
    | nil =>
      refine ⟨[], ?_⟩
      simp [many0F, alt2, alphanumeric1, take_while1, tag, List.isPrefixOf]
    | cons a t =>
      by_cases ha : a.isAlphanum = true
      · have halph : alphanumeric1 (a :: t) =
            some (t.dropWhile (fun c => c.isAlphanum),
              a :: t.takeWhile fun c => c.isAlphanum) := by
          simp [alphanumeric1, take_while1, List.takeWhile_cons, List.dropWhile_cons, ha]
        have hp : alt2 alphanumeric1 (tag ['-']) (a :: t) =
            some (t.dropWhile (fun c => c.isAlphanum),
              a :: t.takeWhile fun c => c.isAlphanum) := by
          simp [alt2, halph]
        have hlen : (t.dropWhile fun c => c.isAlphanum).length < (a :: t).length := by
          have hle := (List.dropWhile_sublist (p := fun c : Char => c.isAlphanum)
            (l := t)).length_le
          simp only [List.length_cons]
          omega
        have hfl : (t.dropWhile fun c => c.isAlphanum).length < fuel := by
          have hle := (List.dropWhile_sublist (p := fun c : Char => c.isAlphanum)
            (l := t)).length_le
          simp only [List.length_cons] at hj
          omega
        obtain ⟨vs, hvs⟩ := ih (t.dropWhile fun c => c.isAlphanum) hfl
        refine ⟨(a :: t.takeWhile fun c => c.isAlphanum) :: vs, ?_⟩
        have hdd : ((t.dropWhile fun c => c.isAlphanum).dropWhile isNameChar) =
            t.dropWhile isNameChar :=
          dropWhile_dropWhile_imp (fun c hc => by simp [isNameChar, hc]) t
        have hgoal : (a :: t).dropWhile isNameChar = t.dropWhile isNameChar := by
          simp [List.dropWhile_cons, isNameChar, ha]
        have hlen' : (t.dropWhile fun c => c.isAlphanum).length < t.length + 1 := by
          have hle := (List.dropWhile_sublist (p := fun c : Char => c.isAlphanum)
            (l := t)).length_le
          omega
        simp [many0F, hp, hlen, hlen', hvs, hdd, hgoal]
      · by_cases hb : a = '-'
        · subst hb
          have halph : alphanumeric1 ('-' :: t) = none := by
            simp [alphanumeric1, take_while1, List.takeWhile_cons, ha]
          have htag : tag ['-'] ('-' :: t) = some (t, ['-']) := by
            simpa using tag_self_append ['-'] t
          have hp : alt2 alphanumeric1 (tag ['-']) ('-' :: t) = some (t, ['-']) := by
            simp [alt2, halph, htag]
          have hfl : t.length < fuel := by
            simp only [List.length_cons] at hj
            omega
          obtain ⟨vs, hvs⟩ := ih t hfl
          refine ⟨['-'] :: vs, ?_⟩
          have hgoal : ('-' :: t).dropWhile isNameChar = t.dropWhile isNameChar := by
            simp [List.dropWhile_cons, isNameChar]
          simp [many0F, hp, hvs, hgoal]
        · have halph : alphanumeric1 (a :: t) = none := by
            simp [alphanumeric1, take_while1, List.takeWhile_cons, ha]
          have htag : tag ['-'] (a :: t) = none := by
            have hp : List.isPrefixOf ['-'] (a :: t) = false := by
              simp [List.isPrefixOf, Bool.and_eq_false_iff]
              intro he
              exact absurd he.symm hb
            simp [tag, hp]
          have hp : alt2 alphanumeric1 (tag ['-']) (a :: t) = none := by
            simp [alt2, halph, htag]
          refine ⟨[], ?_⟩
          have hgoal : (a :: t).dropWhile isNameChar = a :: t := by
            simp [List.dropWhile_cons, isNameChar, ha, hb]
          simp [many0F, hp, hgoal]

/-- `field_name` on a well-formed name followed by `':'` consumes exactly
the name and the colon. -/
theorem field_name_spec (N rest : List Char) (hN : validFieldName N = true) :
    field_name (N ++ ':' :: rest) = some (rest, N) := by
  cases N with
  | nil => simp [validFieldName] at hN
  | cons c cs =>
    simp only [validFieldName, Bool.and_eq_true, List.all_eq_true] at hN
    obtain ⟨hc, hcs⟩ := hN
    have htkne : (((c :: cs) ++ ':' :: rest).takeWhile fun c => c.isAlphanum).isEmpty =
        false := by
      simp [List.takeWhile_cons, hc]
    have halph : alphanumeric1 ((c :: cs) ++ ':' :: rest) =
        some (((c :: cs) ++ ':' :: rest).dropWhile (fun c => c.isAlphanum),
          ((c :: cs) ++ ':' :: rest).takeWhile fun c => c.isAlphanum) := by
      simp only [alphanumeric1, take_while1, htkne]
      simp
    have hnamechars : ∀ x ∈ c :: cs, isNameChar x = true := by
      intro x hx
      rcases List.mem_cons.mp hx with rfl | hx'
      · simp [isNameChar, hc]
      · simpa [isNameChar] using hcs x hx'
    have hdw : (((c :: cs) ++ ':' :: rest).dropWhile
          (fun c => c.isAlphanum)).dropWhile isNameChar = ':' :: rest := by
      rw [dropWhile_dropWhile_imp (fun x hx => by simp [isNameChar, hx]),
        dropWhile_append_all _ hnamechars, dropWhile_eq_self_of_head]
      intro ch h
      injection h with h
      subst h
      decide
    have hlt : (((c :: cs) ++ ':' :: rest).dropWhile
        (fun c => c.isAlphanum)).length <
          (((c :: cs) ++ ':' :: rest).dropWhile (fun c => c.isAlphanum)).length + 1 := by
      omega
    obtain ⟨vs, hvs⟩ := many0F_munch _ _ hlt
    have hmany : many0 (alt2 alphanumeric1 (tag ['-']))
        (((c :: cs) ++ ':' :: rest).dropWhile (fun c => c.isAlphanum)) =
        some (':' :: rest, vs) := by
      rw [many0, hvs, hdw]
    have hpair : pair alphanumeric1 (many0 (alt2 alphanumeric1 (tag ['-'])))
        ((c :: cs) ++ ':' :: rest) =
        some (':' :: rest,
          (((c :: cs) ++ ':' :: rest).takeWhile fun c => c.isAlphanum, vs)) := by
      simp only [pair, halph, hmany]
    have hshape := take_len_append (c :: cs) (':' :: rest)
    have hrec : recognize (pair alphanumeric1 (many0 (alt2 alphanumeric1 (tag ['-']))))
        ((c :: cs) ++ ':' :: rest) = some (':' :: rest, c :: cs) := by
      simp only [recognize, hpair]
      simp only [List.cons_append] at hshape ⊢
      rw [hshape]
    have hcolon : charP ':' (':' :: rest) = some (rest, ':') := by
      simp [charP]
    simp only [field_name, terminated, map, pair, hrec, hcolon]

/-- `specific_field_name` succeeds on its exact name followed by `':'`. -/
theorem specific_field_name_spec (N rest : List Char) (hN : validFieldName N = true) :
    specific_field_name N (N ++ ':' :: rest) = some (rest, ()) := by
  have hfn := field_name_spec N rest hN
  have htag : tag N N = some ([], N) := by simpa using tag_self_append N []
  simp [specific_field_name, value, map, mapParserP, hfn, htag]

/-- `named_single_line_field` on `"N: V\n"` followed by any rest: it yields
the value together with its terminator and stops at the start of the next
line. -/
theorem named_single_line_spec (N V R : List Char) (hN : validFieldName N = true)
    (hV : ∀ ch ∈ V, ch ≠ '\n' ∧ ch ≠ '\r')
    (hV0 : ∀ ch, V.head? = some ch → isSpaceTab ch = false) :
    named_single_line_field N (N ++ ':' :: ' ' :: (V ++ '\n' :: R)) =
      some (R, V ++ ['\n']) := by
  have hsf := specific_field_name_spec N (' ' :: (V ++ '\n' :: R)) hN
  have hz : ∀ ch, (V ++ '\n' :: R).head? = some ch → isSpaceTab ch = false := by
    cases V with
    | nil => intro ch h; injection h with h; subst h; decide
    | cons d V' => intro ch h; injection h with h; subst h; exact hV0 _ rfl
  have hsptrue : isSpaceTab ' ' = true := by decide
  have hsp0 : space0 (' ' :: (V ++ '\n' :: R)) = some (V ++ '\n' :: R, [' ']) := by
    simp [space0, take_while, List.takeWhile_cons, List.dropWhile_cons, hsptrue,
      takeWhile_eq_nil_of_head hz, dropWhile_eq_self_of_head hz]
  have hrol : rest_of_line (V ++ '\n' :: R) = some (R, V ++ ['\n']) :=
    rest_of_line_spec V R (fun ch h => isNotEol_of (hV ch h).1 (hV ch h).2)
  simp [named_single_line_field, preceded, map, pair, hsf, hsp0, hrol]

/-- C8 (amended): for every well-formed field name `N` and value `V` with no
`'\n'`/`'\r'` characters *and not beginning with a blank*, the single-line
field parser on `"N: V\n"` yields exactly `V` with its terminator and leaves
zero remaining input (a value with a leading blank is not restored: the
blank is consumed by the parser's `space0`, see the counterexample). -/
theorem c8_roundtrip (N V : List Char) (hN : validFieldName N = true)
    (hV : ∀ ch ∈ V, ch ≠ '\n' ∧ ch ≠ '\r')
    (hV0 : ∀ ch, V.head? = some ch → isSpaceTab ch = false) :
    named_single_line_field N (N ++ ':' :: ' ' :: (V ++ ['\n'])) =
      some ([], V ++ ['\n']) := by
  simpa using named_single_line_spec N V [] hN hV hV0

/-- C8 witness. -/
theorem c8_roundtrip_witness :
    named_single_line_field "Format".toList
        ("Format".toList ++ ':' :: ' ' :: ("x".toList ++ ['\n'])) =
      some ([], "x".toList ++ ['\n']) :=
  c8_roundtrip "Format".toList "x".toList (by decide) (by decide) (by decide)

/-- C6 (amended): the paragraph assembler does not reject unknown fields —
it leaves them as unconsumed input.  For any header stanza consisting of a
`Format` field followed by remaining input `R` on which every optional
header-field parser fails (e.g. `R` starting with an unrecognized field),
`header_paragraph` *succeeds*, consuming only the `Format` line and leaving
`R` — unknown field included — pending as leftover input. -/
theorem c6_unknown_field_left_pending (f R : List Char)
    (hf : ∀ ch ∈ f, ch ≠ '\n' ∧ ch ≠ '\r')
    (hf0 : ∀ ch, f.head? = some ch → isSpaceTab ch = false)
    (h2 : UpstreamName.parse R = none) (h3 : UpstreamContact.parse R = none)
    (h4 : Source.parse R = none) (h5 : Disclaimer.parse R = none)
    (h6 : Comment.parse R = none) (h7 : License.parse R = none)
    (h8 : Copyright.parse R = none) :
    header_paragraph ("Format".toList ++ ':' :: ' ' :: (f ++ '\n' :: R)) =
      some (R, ⟨⟨f ++ ['\n']⟩, none, none, none, none, none, none, none⟩) := by
  have h1 : Format.parse ("Format".toList ++ ':' :: ' ' :: (f ++ '\n' :: R)) =
      some (R, ⟨f ++ ['\n']⟩) := by
    have hs := named_single_line_spec "Format".toList f R (by decide) hf hf0
    simp only [Format.parse, map]
    rw [hs]
  simp only [header_paragraph, map, perm8Loop, trySlot, permDone8, opt, h1, h2, h3,
    h4, h5, h6, h7, h8]

/-- C6 witness: instantiated at the stanza `"Format: f\nX: y\n"`. -/
theorem c6_unknown_field_left_pending_witness :
    header_paragraph ("Format".toList ++ ':' :: ' ' :: ("f".toList ++ '\n' :: "X: y\n".toList)) =
      some ("X: y\n".toList,
        ⟨⟨"f".toList ++ ['\n']⟩, none, none, none, none, none, none, none⟩) :=
  c6_unknown_field_left_pending "f".toList "X: y\n".toList (by decide) (by decide)
    (by decide) (by decide) (by decide) (by decide) (by decide) (by decide) (by decide)

/-- C4 witness. -/
theorem c4_indent_tolerance_witness :
    (1 ≤ 1 → 1 < 2 →
      cleanContStep (List.replicate 2 ' ') (List.replicate 1 ' ' ++ ("b".toList ++ '\n' :: [])) =
        cleanContStep (List.replicate 2 ' ') (List.replicate 2 ' ' ++ ("b".toList ++ '\n' :: []))) ∧
    (2 < 3 → "b".toList ≠ ['.'] →
      cleanContStep (List.replicate 2 ' ') (List.replicate 3 ' ' ++ ("b".toList ++ '\n' :: [])) =
        some ([], (List.replicate (3 - 2) ' ' ++ "b".toList) ++ ['\n'])) := by
  refine ⟨fun _ _ => ?_, fun _ _ => ?_⟩
  · exact (c4_indent_tolerance 2 1 "b".toList [] (by decide) (by decide) (by decide)).1
      (by decide) (by decide)
  · exact (c4_indent_tolerance 2 3 "b".toList [] (by decide) (by decide) (by decide)).2
      (by decide) (by decide)

/-! ## Inversion lemmas for the combinators -/

theorem some_pair_inj {α : Type} {r1 r2 : Input} {v1 v2 : α}
    (h : (some (r1, v1) : Option (Input × α)) = some (r2, v2)) : r1 = r2 ∧ v1 = v2 := by
  injection h with h
  exact ⟨congrArg Prod.fst h, congrArg Prod.snd h⟩

theorem map_eq_some {α β : Type} {p : NomP α} {f : α → β} {i r : Input} {b : β}
    (h : map p f i = some (r, b)) : ∃ v, p i = some (r, v) ∧ b = f v := by
  unfold map at h
  split at h
  · rename_i r2 v heq
    obtain ⟨h1, h2⟩ := some_pair_inj h
    subst h1
    exact ⟨v, heq, h2.symm⟩
  · exact absurd h (by simp)

theorem pair_eq_some {α β : Type} {p : NomP α} {q : NomP β} {i r : Input} {ab : α × β}
    (h : pair p q i = some (r, ab)) :
    ∃ m, p i = some (m, ab.1) ∧ q m = some (r, ab.2) := by
  unfold pair at h
  split at h
  · exact absurd h (by simp)
  · rename_i m a heq
    split at h
    · exact absurd h (by simp)
    · rename_i r2 b heq2
      obtain ⟨h1, h2⟩ := some_pair_inj h
      subst h1
      subst h2
      exact ⟨m, heq, heq2⟩

theorem alt2_eq_some {α : Type} {p q : NomP α} {i : Input} {x : Input × α}
    (h : alt2 p q i = some x) : p i = some x ∨ (p i = none ∧ q i = some x) := by
  unfold alt2 at h
  split at h
  · rename_i y heq
    exact Or.inl (heq.trans h)
  · rename_i heq
    exact Or.inr ⟨heq, h⟩

theorem opt_eq_some {α : Type} {p : NomP α} {i r : Input} {w : Option α}
    (h : opt p i = some (r, w)) :
    (∃ v, p i = some (r, v) ∧ w = some v) ∨ (p i = none ∧ r = i ∧ w = none) := by
  unfold opt at h
  split at h
  · rename_i r2 v heq
    obtain ⟨h1, h2⟩ := some_pair_inj h
    subst h1
    exact Or.inl ⟨v, heq, h2.symm⟩
  · rename_i heq
    obtain ⟨h1, h2⟩ := some_pair_inj h
    exact Or.inr ⟨heq, h1.symm, h2.symm⟩

theorem recognize_eq_some {α : Type} {p : NomP α} {i r w : Input}
    (h : recognize p i = some (r, w)) : ∃ v, p i = some (r, v) := by
  unfold recognize at h
  split at h
  · rename_i r2 v heq
    obtain ⟨h1, _⟩ := some_pair_inj h
    subst h1
    exact ⟨v, heq⟩
  · exact absurd h (by simp)

theorem peek_eq_some {α : Type} {p : NomP α} {i r : Input} {v : α}
    (h : peek p i = some (r, v)) : r = i := by
  unfold peek at h
  split at h
  · exact (some_pair_inj h).1.symm
  · exact absurd h (by simp)

theorem flat_map_eq_some {α β : Type} {p : NomP α} {f : α → NomP β} {i r : Input} {b : β}
    (h : flat_map p f i = some (r, b)) :
    ∃ m v, p i = some (m, v) ∧ f v m = some (r, b) := by
  unfold flat_map at h
  split at h
  · rename_i m v heq
    exact ⟨m, v, heq, h⟩
  · exact absurd h (by simp)

theorem mapParserP_eq_some {β : Type} {p : NomP (List Char)} {q : NomP β} {i r : Input}
    {b : β} (h : mapParserP p q i = some (r, b)) : ∃ v, p i = some (r, v) := by
  unfold mapParserP at h
  split at h
  · rename_i r2 v heq
    split at h
    · rename_i r3 b2 heq2
      obtain ⟨h1, _⟩ := some_pair_inj h
      subst h1
      exact ⟨v, heq⟩
    · exact absurd h (by simp)
  · exact absurd h (by simp)

theorem trySlot_eq_some {σ β : Type} {s : Option σ} {p : NomP σ}
    {fill : σ → Input → Option β} {pass : Option β} {i : Input} {x : β}
    (h : trySlot s p fill pass i = some x) :
    (∃ i2 w, p i = some (i2, w) ∧ fill w i2 = some x) ∨ pass = some x := by
  unfold trySlot at h
  split at h
  · split at h
    · rename_i i2 w heq
      exact Or.inl ⟨i2, w, heq, h⟩
    · exact Or.inr h
  · exact Or.inr h

theorem permDone8_eq_some {α₁ α₂ α₃ α₄ α₅ α₆ α₇ α₈ : Type} {i r : Input}
    {s1 : Option α₁} {s2 : Option α₂} {s3 : Option α₃} {s4 : Option α₄} {s5 : Option α₅}
    {s6 : Option α₆} {s7 : Option α₇} {s8 : Option α₈}
    {t : α₁ × α₂ × α₃ × α₄ × α₅ × α₆ × α₇ × α₈}
    (h : permDone8 i s1 s2 s3 s4 s5 s6 s7 s8 = some (r, t)) : r = i := by
  cases s1 <;> cases s2 <;> cases s3 <;> cases s4 <;> cases s5 <;> cases s6 <;>
    cases s7 <;> cases s8 <;> simp_all [permDone8]

theorem permDone4_eq_some {α₁ α₂ α₃ α₄ : Type} {i r : Input}
    {s1 : Option α₁} {s2 : Option α₂} {s3 : Option α₃} {s4 : Option α₄}
    {t : α₁ × α₂ × α₃ × α₄}
    (h : permDone4 i s1 s2 s3 s4 = some (r, t)) : r = i := by
  cases s1 <;> cases s2 <;> cases s3 <;> cases s4 <;> simp_all [permDone4]

/-! ## Consumption: a successful parse returns a suffix of its input -/

/-- A parser only moves forward: the remaining input of any successful
parse is a suffix of the input. -/
def Consumes {α : Type} (p : NomP α) : Prop :=
  ∀ i r v, p i = some (r, v) → r <:+ i

theorem tag_consumes (t : List Char) : Consumes (tag t) := by
  intro i r v h
  unfold tag at h
  split at h
  · exact (some_pair_inj h).1 ▸ List.drop_suffix _ _
  · exact absurd h (by simp)

theorem charP_consumes (c : Char) : Consumes (charP c) := by
  intro i r v h
  cases i with
  | nil => simp [charP] at h
  | cons c2 rest =>
    simp only [charP] at h
    split at h
    · exact (some_pair_inj h).1 ▸ List.suffix_cons _ _
    · exact absurd h (by simp)

theorem take_while_consumes (p : Char → Bool) : Consumes (take_while p) := by
  intro i r v h
  unfold take_while at h
  exact (some_pair_inj h).1 ▸ List.dropWhile_suffix _

theorem take_while1_consumes (p : Char → Bool) : Consumes (take_while1 p) := by
  intro i r v h
  unfold take_while1 at h
  split at h
  · exact absurd h (by simp)
  · exact (some_pair_inj h).1 ▸ List.dropWhile_suffix _

theorem take_while_m_n_consumes (m n : Nat) (p : Char → Bool) :
    Consumes (take_while_m_n m n p) := by
  intro i r v h
  unfold take_while_m_n at h
  split at h
  · exact absurd h (by simp)
  · exact (some_pair_inj h).1 ▸ List.drop_suffix _ _

theorem eof_consumes : Consumes eof := by
  intro i r v h
  unfold eof at h
  split at h
  · exact (some_pair_inj h).1 ▸ List.suffix_rfl
  · exact absurd h (by simp)

theorem line_ending_consumes : Consumes line_ending := by
  intro i r v h
  cases i with
  | nil => simp [line_ending] at h
  | cons c rest =>
    simp only [line_ending] at h
    split at h
    · exact (some_pair_inj h).1 ▸ List.suffix_cons _ _
    · split at h
      · split at h
        · exact (some_pair_inj h).1 ▸
            ((List.suffix_cons _ _).trans (List.suffix_cons _ _))
        · exact absurd h (by simp)
      · exact absurd h (by simp)

theorem not_line_ending_consumes : Consumes not_line_ending := by
  intro i r v h
  unfold not_line_ending at h
  split at h
  · exact (some_pair_inj h).1 ▸ List.dropWhile_suffix _
  · exact absurd h (by simp)

theorem map_consumes {α β : Type} {p : NomP α} {f : α → β} (hp : Consumes p) :
    Consumes (map p f) := by
  intro i r v h
  obtain ⟨w, hw, _⟩ := map_eq_some h
  exact hp _ _ _ hw

theorem value_consumes {α β : Type} {p : NomP α} {v : β} (hp : Consumes p) :
    Consumes (value v p) := map_consumes hp

theorem opt_consumes {α : Type} {p : NomP α} (hp : Consumes p) : Consumes (opt p) := by
  intro i r v h
  rcases opt_eq_some h with ⟨w, hw, _⟩ | ⟨_, rfl, _⟩
  · exact hp _ _ _ hw
  · exact List.suffix_rfl

theorem pair_consumes {α β : Type} {p : NomP α} {q : NomP β} (hp : Consumes p)
    (hq : Consumes q) : Consumes (pair p q) := by
  intro i r v h
  obtain ⟨m, h1, h2⟩ := pair_eq_some h
  exact (hq _ _ _ h2).trans (hp _ _ _ h1)

theorem preceded_consumes {α β : Type} {p : NomP α} {q : NomP β} (hp : Consumes p)
    (hq : Consumes q) : Consumes (preceded p q) := map_consumes (pair_consumes hp hq)

theorem terminated_consumes {α β : Type} {p : NomP α} {q : NomP β} (hp : Consumes p)
    (hq : Consumes q) : Consumes (terminated p q) := map_consumes (pair_consumes hp hq)

theorem separated_pair_consumes {α β γ : Type} {p : NomP α} {s : NomP β} {q : NomP γ}
    (hp : Consumes p) (hs : Consumes s) (hq : Consumes q) :
    Consumes (separated_pair p s q) :=
  map_consumes (pair_consumes hp (pair_consumes hs hq))

theorem delimited_consumes {α β γ : Type} {p : NomP α} {q : NomP β} {s : NomP γ}
    (hp : Consumes p) (hq : Consumes q) (hs : Consumes s) :
    Consumes (delimited p q s) :=
  map_consumes (pair_consumes hp (pair_consumes hq hs))

theorem alt2_consumes {α : Type} {p q : NomP α} (hp : Consumes p) (hq : Consumes q) :
    Consumes (alt2 p q) := by
  intro i r v h
  rcases alt2_eq_some h with h1 | ⟨_, h2⟩
  · exact hp _ _ _ h1
  · exact hq _ _ _ h2

theorem recognize_consumes {α : Type} {p : NomP α} (hp : Consumes p) :
    Consumes (recognize p) := by
  intro i r v h
  obtain ⟨w, hw⟩ := recognize_eq_some h
  exact hp _ _ _ hw

theorem peek_consumes {α : Type} (p : NomP α) : Consumes (peek p) := by
  intro i r v h
  exact peek_eq_some h ▸ List.suffix_rfl

theorem flat_map_consumes {α β : Type} {p : NomP α} {f : α → NomP β} (hp : Consumes p)
    (hf : ∀ v, Consumes (f v)) : Consumes (flat_map p f) := by
  intro i r v h
  obtain ⟨m, w, h1, h2⟩ := flat_map_eq_some h
  exact (hf w _ _ _ h2).trans (hp _ _ _ h1)

theorem mapParserP_consumes {β : Type} {p : NomP (List Char)} {q : NomP β}
    (hp : Consumes p) : Consumes (mapParserP p q) := by
  intro i r v h
  obtain ⟨w, hw⟩ := mapParserP_eq_some h
  exact hp _ _ _ hw

theorem many0F_consumes {α : Type} {p : NomP α} (hp : Consumes p) :
    ∀ fuel, Consumes (many0F p fuel) := by
  intro fuel
  induction fuel with
  | zero => intro i r v h; exact absurd h (by simp [many0F])
  | succ fuel ih =>
    intro i r v h
    unfold many0F at h
    split at h
    · exact (some_pair_inj h).1 ▸ List.suffix_rfl
    · rename_i r0 v0 heq
      split at h
      · split at h
        · rename_i r2 vs heq2
          obtain ⟨h1, _⟩ := some_pair_inj h
          subst h1
          exact (ih _ _ _ heq2).trans (hp _ _ _ heq)
        · exact absurd h (by simp)
      · exact absurd h (by simp)

theorem many0_consumes {α : Type} {p : NomP α} (hp : Consumes p) : Consumes (many0 p) := by
  intro i r v h
  exact many0F_consumes hp _ _ _ _ h

theorem many1_consumes {α : Type} {p : NomP α} (hp : Consumes p) : Consumes (many1 p) := by
  intro i r v h
  unfold many1 at h
  split at h
  · exact absurd h (by simp)
  · rename_i r0 v0 heq
    split at h
    · split at h
      · rename_i r2 vs heq2
        obtain ⟨h1, _⟩ := some_pair_inj h
        subst h1
        exact (many0_consumes hp _ _ _ heq2).trans (hp _ _ _ heq)
      · exact absurd h (by simp)
    · exact absurd h (by simp)

theorem perm8Loop_consumes {α₁ α₂ α₃ α₄ α₅ α₆ α₇ α₈ : Type} {p1 : NomP α₁} {p2 : NomP α₂}
    {p3 : NomP α₃} {p4 : NomP α₄} {p5 : NomP α₅} {p6 : NomP α₆} {p7 : NomP α₇}
    {p8 : NomP α₈} (h1 : Consumes p1) (h2 : Consumes p2) (h3 : Consumes p3)
    (h4 : Consumes p4) (h5 : Consumes p5) (h6 : Consumes p6) (h7 : Consumes p7)
    (h8 : Consumes p8) :
    ∀ fuel s1 s2 s3 s4 s5 s6 s7 s8,
      Consumes (perm8Loop p1 p2 p3 p4 p5 p6 p7 p8 fuel s1 s2 s3 s4 s5 s6 s7 s8) := by
  intro fuel
  induction fuel with
  | zero => intro s1 s2 s3 s4 s5 s6 s7 s8 i r v h; exact absurd h (by simp [perm8Loop])
  | succ fuel ih =>
    intro s1 s2 s3 s4 s5 s6 s7 s8 i r v h
    unfold perm8Loop at h
    rcases trySlot_eq_some h with ⟨i2, w, hp, hfill⟩ | h
    · exact (ih _ _ _ _ _ _ _ _ _ _ _ hfill).trans (h1 _ _ _ hp)
    rcases trySlot_eq_some h with ⟨i2, w, hp, hfill⟩ | h
    · exact (ih _ _ _ _ _ _ _ _ _ _ _ hfill).trans (h2 _ _ _ hp)
    rcases trySlot_eq_some h with ⟨i2, w, hp, hfill⟩ | h
    · exact (ih _ _ _ _ _ _ _ _ _ _ _ hfill).trans (h3 _ _ _ hp)
    rcases trySlot_eq_some h with ⟨i2, w, hp, hfill⟩ | h
    · exact (ih _ _ _ _ _ _ _ _ _ _ _ hfill).trans (h4 _ _ _ hp)
    rcases trySlot_eq_some h with ⟨i2, w, hp, hfill⟩ | h
    · exact (ih _ _ _ _ _ _ _ _ _ _ _ hfill).trans (h5 _ _ _ hp)
    rcases trySlot_eq_some h with ⟨i2, w, hp, hfill⟩ | h
    · exact (ih _ _ _ _ _ _ _ _ _ _ _ hfill).trans (h6 _ _ _ hp)
    rcases trySlot_eq_some h with ⟨i2, w, hp, hfill⟩ | h
    · exact (ih _ _ _ _ _ _ _ _ _ _ _ hfill).trans (h7 _ _ _ hp)
    rcases trySlot_eq_some h with ⟨i2, w, hp, hfill⟩ | h
    · exact (ih _ _ _ _ _ _ _ _ _ _ _ hfill).trans (h8 _ _ _ hp)
    exact permDone8_eq_some h ▸ List.suffix_rfl

theorem perm4Loop_consumes {α₁ α₂ α₃ α₄ : Type} {p1 : NomP α₁} {p2 : NomP α₂}
    {p3 : NomP α₃} {p4 : NomP α₄} (h1 : Consumes p1) (h2 : Consumes p2)
    (h3 : Consumes p3) (h4 : Consumes p4) :
    ∀ fuel s1 s2 s3 s4, Consumes (perm4Loop p1 p2 p3 p4 fuel s1 s2 s3 s4) := by
  intro fuel
  induction fuel with
  | zero => intro s1 s2 s3 s4 i r v h; exact absurd h (by simp [perm4Loop])
  | succ fuel ih =>
    intro s1 s2 s3 s4 i r v h
    unfold perm4Loop at h
    rcases trySlot_eq_some h with ⟨i2, w, hp, hfill⟩ | h
    · exact (ih _ _ _ _ _ _ _ hfill).trans (h1 _ _ _ hp)
    rcases trySlot_eq_some h with ⟨i2, w, hp, hfill⟩ | h
    · exact (ih _ _ _ _ _ _ _ hfill).trans (h2 _ _ _ hp)
    rcases trySlot_eq_some h with ⟨i2, w, hp, hfill⟩ | h
    · exact (ih _ _ _ _ _ _ _ hfill).trans (h3 _ _ _ hp)
    rcases trySlot_eq_some h with ⟨i2, w, hp, hfill⟩ | h
    · exact (ih _ _ _ _ _ _ _ hfill).trans (h4 _ _ _ hp)
    exact permDone4_eq_some h ▸ List.suffix_rfl

/-! ## Consumption of the concrete grammar -/

theorem field_name_consumes : Consumes field_name :=
  terminated_consumes
    (recognize_consumes (pair_consumes (take_while1_consumes _)
      (many0_consumes (alt2_consumes (take_while1_consumes _) (tag_consumes _)))))
    (charP_consumes _)

theorem end_of_line_or_string_consumes : Consumes end_of_line_or_string :=
  alt2_consumes eof_consumes line_ending_consumes

theorem line_consumes : Consumes line :=
  recognize_consumes (pair_consumes (take_while_consumes _) end_of_line_or_string_consumes)

theorem rest_of_line_consumes : Consumes rest_of_line :=
  recognize_consumes (pair_consumes (opt_consumes not_line_ending_consumes)
    end_of_line_or_string_consumes)

theorem continuation_line_consumes : Consumes continuation_line :=
  recognize_consumes (pair_consumes (take_while1_consumes _)
    (pair_consumes (take_while_consumes _) end_of_line_or_string_consumes))

theorem field_pair_consumes : Consumes field_pair :=
  separated_pair_consumes field_name_consumes (take_while_consumes _)
    (recognize_consumes (pair_consumes rest_of_line_consumes
      (many0_consumes continuation_line_consumes)))

theorem specific_field_name_consumes (name : List Char) :
    Consumes (specific_field_name name) :=
  value_consumes (mapParserP_consumes field_name_consumes)

theorem named_single_line_field_consumes (name : List Char) :
    Consumes (named_single_line_field name) :=
  preceded_consumes (pair_consumes (specific_field_name_consumes name)
    (take_while_consumes _)) rest_of_line_consumes

theorem named_multi_line_field_consumes (name : List Char) :
    Consumes (named_multi_line_field name) :=
  preceded_consumes (pair_consumes (specific_field_name_consumes name)
    (take_while_consumes _))
    (recognize_consumes (pair_consumes rest_of_line_consumes
      (many0_consumes continuation_line_consumes)))

theorem multi_line_field_consumes (name : List Char) : Consumes (multi_line_field name) :=
  named_multi_line_field_consumes name

theorem formatParse_consumes : Consumes Format.parse :=
  map_consumes (named_single_line_field_consumes _)

theorem upstreamnameParse_consumes : Consumes UpstreamName.parse :=
  map_consumes (named_single_line_field_consumes _)

theorem upstreamcontactParse_consumes : Consumes UpstreamContact.parse :=
  map_consumes (named_single_line_field_consumes _)

theorem sourceParse_consumes : Consumes Source.parse :=
  map_consumes (named_single_line_field_consumes _)

theorem disclaimerParse_consumes : Consumes Disclaimer.parse :=
  map_consumes (multi_line_field_consumes _)

theorem commentParse_consumes : Consumes Comment.parse :=
  map_consumes (multi_line_field_consumes _)

theorem licenseParse_consumes : Consumes License.parse :=
  map_consumes (multi_line_field_consumes _)

theorem copyrightParse_consumes : Consumes Copyright.parse :=
  map_consumes (map_consumes (many1_consumes (multi_line_field_consumes _)))

theorem filesParse_consumes : Consumes Files.parse :=
  map_consumes (map_consumes (many1_consumes (multi_line_field_consumes _)))

theorem header_paragraph_consumes : Consumes header_paragraph :=
  map_consumes (perm8Loop_consumes formatParse_consumes
    (opt_consumes upstreamnameParse_consumes) (opt_consumes upstreamcontactParse_consumes)
    (opt_consumes sourceParse_consumes) (opt_consumes disclaimerParse_consumes)
    (opt_consumes commentParse_consumes) (opt_consumes licenseParse_consumes)
    (opt_consumes copyrightParse_consumes) 9 none none none none none none none none)

theorem files_paragraph_consumes : Consumes files_paragraph :=
  map_consumes (perm4Loop_consumes filesParse_consumes copyrightParse_consumes
    licenseParse_consumes (opt_consumes commentParse_consumes) 5 none none none none)

theorem license_detail_paragraph_consumes : Consumes license_detail_paragraph :=
  map_consumes (mapParserP_consumes (named_multi_line_field_consumes _))

theorem body_paragraph_consumes : Consumes body_paragraph :=
  preceded_consumes
    (many0_consumes (pair_consumes (take_while_consumes _) line_ending_consumes))
    (alt2_consumes (map_consumes files_paragraph_consumes)
      (map_consumes license_detail_paragraph_consumes))

theorem copyright_file_consumes : Consumes copyright_file :=
  map_consumes (delimited_consumes
    (many0_consumes (pair_consumes (take_while_consumes _) line_ending_consumes))
    (pair_consumes header_paragraph_consumes (many0_consumes body_paragraph_consumes))
    (take_while_consumes _))

/-- When `many0` stops, the element parser fails at the returned rest. -/
theorem many0F_stop {α : Type} {p : NomP α} :
    ∀ {fuel : Nat} {i r : Input} {vs : List α},
      many0F p fuel i = some (r, vs) → p r = none := by
  intro fuel
  induction fuel with
  | zero => intro i r vs h; exact absurd h (by simp [many0F])
  | succ fuel ih =>
    intro i r vs h
    unfold many0F at h
    split at h
    · rename_i heq
      obtain ⟨h1, _⟩ := some_pair_inj h
      subst h1
      exact heq
    · rename_i r0 v0 heq
      split at h
      · split at h
        · rename_i r2 vs2 heq2
          obtain ⟨h1, _⟩ := some_pair_inj h
          subst h1
          exact ih heq2
        · exact absurd h (by simp)
      · exact absurd h (by simp)

theorem many0_stop {α : Type} {p : NomP α} {i r : Input} {vs : List α}
    (h : many0 p i = some (r, vs)) : p r = none :=
  many0F_stop h

/-- A character that is not a line terminator class member. -/
theorem eol_char_of_not_isNotEol {c : Char} (h : isNotEol c = false) :
    c = '\n' ∨ c = '\r' := by
  by_cases h1 : c = '\n'
  · exact Or.inl h1
  by_cases h2 : c = '\r'
  · exact Or.inr h2
  · rw [isNotEol_of h1 h2] at h
    exact absurd h (by simp)

/-- C7 (amended): a successful `copyright_file` parse returns the unconsumed
remainder — a suffix of the input which need *not* be empty, as the parser
performs no end-of-input check (see the counterexample for a success with
non-whitespace leftover). -/
theorem c7_rest_is_suffix (i r : Input) (v : CopyrightFile)
    (h : copyright_file i = some (r, v)) : r <:+ i :=
  copyright_file_consumes i r v h

/-- C7 witness. -/
theorem c7_rest_is_suffix_witness :
    ("Q: x\n".toList : Input) <:+ "Format: f\nQ: x\n".toList :=
  c7_rest_is_suffix "Format: f\nQ: x\n".toList "Q: x\n".toList
    ⟨⟨⟨"f\n".toList⟩, none, none, none, none, none, none, none⟩, []⟩ (by decide)

/-- C9 (amended): on any input free of carriage returns, whenever the raw
field parser `field_pair` succeeds the remaining input is empty or does not
begin with whitespace (i.e. is not a continuation line).  Without the
no-CR hypothesis this fails: a whitespace-led line carrying a bare CR is
rejected as a continuation line yet left as the remaining input (see the
counterexample). -/
theorem c9_field_value_boundary (i : Input) (hcr : ∀ ch ∈ i, ch ≠ '\r')
    (r : Input) (v : List Char × List Char) (h : field_pair i = some (r, v)) :
    r = [] ∨ ∀ ch, r.head? = some ch → isSpaceTab ch = false := by
  have hsuf : r <:+ i := field_pair_consumes _ _ _ h
  unfold field_pair separated_pair at h
  obtain ⟨w, hw, _⟩ := map_eq_some h
  obtain ⟨m1, ha, hb⟩ := pair_eq_some hw
  obtain ⟨m2, hc, hd⟩ := pair_eq_some hb
  obtain ⟨w2, hrec⟩ := recognize_eq_some hd
  obtain ⟨m3, he, hf⟩ := pair_eq_some hrec
  have hstop : continuation_line r = none := many0_stop hf
  cases r with
  | nil => exact Or.inl rfl
  | cons ch t =>
    refine Or.inr ?_
    intro ch2 hch2
    injection hch2 with hch2
    subst hch2
    by_contra hcontra
    have hst : isSpaceTab ch = true := by
      cases hb2 : isSpaceTab ch
      · exact absurd hb2 hcontra
      · rfl
    have hsp : space1 (ch :: t) =
        some ((ch :: t).dropWhile isSpaceTab, (ch :: t).takeWhile isSpaceTab) := by
      have hne : ((ch :: t).takeWhile isSpaceTab).isEmpty = false := by
        simp [List.takeWhile_cons, hst]
      simp [space1, take_while1, hne]
    have hmne : my_non_line_ending ((ch :: t).dropWhile isSpaceTab) =
        some (((ch :: t).dropWhile isSpaceTab).dropWhile isNotEol,
          ((ch :: t).dropWhile isSpaceTab).takeWhile isNotEol) := by
      simp [my_non_line_ending, take_while]
    have heol : ∃ x, end_of_line_or_string
        (((ch :: t).dropWhile isSpaceTab).dropWhile isNotEol) = some x := by
      cases hjc : ((ch :: t).dropWhile isSpaceTab).dropWhile isNotEol with
      | nil => exact ⟨([], []), by simp [end_of_line_or_string, alt2, eof]⟩
      | cons c2 t2 =>
        have hc2f : isNotEol c2 = false := dropWhile_head_false hjc
        have hc2mem : c2 ∈ ch :: t := by
          have hm1 : c2 ∈ ((ch :: t).dropWhile isSpaceTab).dropWhile isNotEol := by
            rw [hjc]
            simp
          exact (List.dropWhile_suffix _).subset
            ((List.dropWhile_suffix _).subset hm1)
        have hc2cr : c2 ≠ '\r' := hcr c2 (hsuf.subset hc2mem)
        have hc2nl : c2 = '\n' := by
          rcases eol_char_of_not_isNotEol hc2f with h' | h'
          · exact h'
          · exact absurd h' hc2cr
        subst hc2nl
        exact ⟨(t2, ['\n']), eol_newline t2⟩
    obtain ⟨⟨xr, xv⟩, hx⟩ := heol
    have hchain : pair space1 (pair my_non_line_ending end_of_line_or_string)
        (ch :: t) =
        some (xr, ((ch :: t).takeWhile isSpaceTab,
          (((ch :: t).dropWhile isSpaceTab).takeWhile isNotEol, xv))) := by
      simp [pair, hsp, hmne, hx]
    have hne2 : continuation_line (ch :: t) ≠ none := by
      simp [continuation_line, recognize, hchain]
    exact hne2 hstop

/-- C9 witness. -/
theorem c9_field_value_boundary_witness :
    "x".toList = ([] : Input) ∨
      ∀ ch, ("x".toList : Input).head? = some ch → isSpaceTab ch = false :=
  c9_field_value_boundary "N: v\nx".toList (by decide) "x".toList
    ("N".toList, "v\n".toList) (by decide)

end DebianControl
